import Mathlib

/-!
# Chess-Analyzer engine layer: a shallow embedding

This development embeds the two core components of the Chess-Analyzer
repository — the engine protocol client (`src/engine/stockfish.ts`,
`src/engine/stockfish.worker.ts`) and the move classifier
(`classifyMove` and its helpers in `src/engine/stockfish.ts`) — as Lean
definitions, and proves the specified properties about them.

Conventions used throughout:
* JS strings are modelled as `List Char`; JS `String.prototype.trim`,
  `startsWith` and `split(/\s+/)` are modelled by executable functions
  with the same observable behaviour (including the empty leading /
  trailing fields `split` produces around boundary whitespace).
* Centipawn evaluations are integers (`Int`), as the spec's data model
  states ("each a centipawn integer or mate score"); `Math.round` is
  the identity on integers and is therefore dropped.
* The single-threaded JS event loop is modelled by explicit transition
  systems: an event is one atomic turn of the loop (a message delivery,
  a timer callback, the synchronous prologue of a call), and a trace is
  a list of events folded over the state.
-/

/-! ## Move classifier (src/engine/stockfish.ts, lines 109-218) -/

/-- `MoveClassification` from src/engine/stockfish.ts. -/
inductive MoveClassification where
  | BLUNDER
  | MISTAKE
  | INACCURACY
  | GOOD
  | EXCELLENT
  | BEST
  | BRILLIANT
deriving DecidableEq, Repr

/-- `EvalInput = number | MateScore`: a plain centipawn number or a
tagged mate score. -/
inductive EvalInput where
  | cp (v : Int)
  | mate (v : Int)
deriving DecidableEq, Repr

/-- Side to move, `"w" | "b"`. -/
inductive Side where
  | w
  | b
deriving DecidableEq, Repr

/-- `ClassifyMoveInput`; the optional fields of the TS type are
`Option`s, with the source's `?? 0` / truthiness defaults applied at
use sites exactly as in the code. -/
structure ClassifyMoveInput where
  evalBefore : EvalInput
  bestEvalAfter : EvalInput
  playedEvalAfter : EvalInput
  sideToMove : Side
  allowsMate : Option Bool := none
  isSacrifice : Option Bool := none
  materialChangeCp : Option Int := none
deriving DecidableEq, Repr

/-- `ClassifyMoveOutput`. -/
structure ClassifyMoveOutput where
  classification : MoveClassification
  deltaCp : Int
deriving DecidableEq, Repr

/-- `LARGE_MATE_CP = 100_000`. -/
def LARGE_MATE_CP : Int := 100000

/-- `evalToWhiteCp` (stockfish.ts line 138): project an evaluation given
from `sideToMove`'s perspective onto White's perspective; mate scores
become a large fixed magnitude carrying the mate's sign. -/
def evalToWhiteCp (evalInput : EvalInput) (sideToMove : Side) : Int :=
  let cpFromSideToMove :=
    match evalInput with
    | .cp v => v
    | .mate v => if v ≥ 0 then LARGE_MATE_CP else -LARGE_MATE_CP
  match sideToMove with
  | .w => cpFromSideToMove
  | .b => -cpFromSideToMove

/-- `toMoverPerspective` (stockfish.ts line 144). -/
def toMoverPerspective (whiteCp : Int) (sideToMove : Side) : Int :=
  match sideToMove with
  | .w => whiteCp
  | .b => -whiteCp

/-- `thresholdClassification` (stockfish.ts line 148). -/
def thresholdClassification (deltaCp : Int) : MoveClassification :=
  if deltaCp ≤ 10 then .BEST
  else if deltaCp ≤ 25 then .EXCELLENT
  else if deltaCp ≤ 60 then .GOOD
  else if deltaCp ≤ 120 then .INACCURACY
  else if deltaCp ≤ 300 then .MISTAKE
  else .BLUNDER

/-- `severityRank` (stockfish.ts line 157). -/
def severityRank : MoveClassification → Int
  | .BLUNDER => 0
  | .MISTAKE => 1
  | .INACCURACY => 2
  | .GOOD => 3
  | .EXCELLENT => 4
  | .BEST => 5
  | .BRILLIANT => 6

/-- `minSeverity` (stockfish.ts line 178). -/
def minSeverity (current target : MoveClassification) : MoveClassification :=
  if severityRank current > severityRank target then target else current

/-- The flipped side used for the two after-move evaluations
(`input.sideToMove === "w" ? "b" : "w"`). -/
def Side.flip : Side → Side
  | .w => .b
  | .b => .w

/-- `classifyMove` (stockfish.ts lines 182-218), with the sequential
reassignments of `classification` unrolled into successive `let`s.
Inputs are integral centipawns, so `Math.round` is the identity. -/
def classifyMove (input : ClassifyMoveInput) : ClassifyMoveOutput :=
  let bestWhiteCp := evalToWhiteCp input.bestEvalAfter input.sideToMove.flip
  let playedWhiteCp := evalToWhiteCp input.playedEvalAfter input.sideToMove.flip
  let beforeWhiteCp := evalToWhiteCp input.evalBefore input.sideToMove
  let bestMoverCp := toMoverPerspective bestWhiteCp input.sideToMove
  let playedMoverCp := toMoverPerspective playedWhiteCp input.sideToMove
  let beforeMoverCp := toMoverPerspective beforeWhiteCp input.sideToMove
  let deltaCp := max 0 (bestMoverCp - playedMoverCp)
  let classification := thresholdClassification deltaCp
  if input.allowsMate.getD false then
    { classification := .BLUNDER, deltaCp := deltaCp }
  else
    let materialChangeCp := input.materialChangeCp.getD 0
    let immediateMaterialDrop := materialChangeCp ≤ -100
    let classification :=
      if immediateMaterialDrop ∧ deltaCp ≥ 120 then
        minSeverity classification .MISTAKE
      else classification
    let classification :=
      if immediateMaterialDrop ∧ deltaCp > 300 then
        MoveClassification.BLUNDER
      else classification
    let candidateBrilliant :=
      classification = .BEST ∨ classification = .EXCELLENT
    let improvesAdvantage := playedMoverCp - beforeMoverCp ≥ 80
    let clearlyGoodAfter := playedMoverCp ≥ 120
    if candidateBrilliant ∧ input.isSacrifice.getD false ∧
        (clearlyGoodAfter ∨ improvesAdvantage) then
      { classification := .BRILLIANT, deltaCp := deltaCp }
    else
      { classification := classification, deltaCp := deltaCp }

/-- C2: whenever `allowsMate` is set to `true`, `classifyMove` returns
BLUNDER, whatever the values of `deltaCp`, `materialChangeCp` and
`isSacrifice`: the mate override takes precedence over the material
floor, the material escalation and the BRILLIANT upgrade. -/
theorem classifyMove_allowsMate_blunder (input : ClassifyMoveInput)
    (h : input.allowsMate = some true) :
    (classifyMove input).classification = .BLUNDER := by
  simp [classifyMove, h]

theorem classifyMove_allowsMate_blunder_witness :
    ({ evalBefore := .cp 30, bestEvalAfter := .cp 40,
       playedEvalAfter := .mate 3, sideToMove := .w,
       allowsMate := some true } : ClassifyMoveInput).allowsMate = some true ∧
    (classifyMove
      { evalBefore := .cp 30, bestEvalAfter := .cp 40,
        playedEvalAfter := .mate 3, sideToMove := .w,
        allowsMate := some true }).classification = .BLUNDER :=
  ⟨rfl, classifyMove_allowsMate_blunder _ rfl⟩

/-- Both return paths of `classifyMove` carry the same `deltaCp`,
namely `max 0 (bestMoverCp - playedMoverCp)`. -/
lemma classifyMove_deltaCp_eq (input : ClassifyMoveInput) :
    (classifyMove input).deltaCp =
      max 0
        (toMoverPerspective
            (evalToWhiteCp input.bestEvalAfter input.sideToMove.flip)
            input.sideToMove -
          toMoverPerspective
            (evalToWhiteCp input.playedEvalAfter input.sideToMove.flip)
            input.sideToMove) := by
  simp only [classifyMove]
  repeat' split
  all_goals rfl

/-- C3: for every input, the `deltaCp` field returned by `classifyMove`
is nonnegative. -/
theorem classifyMove_deltaCp_nonneg (input : ClassifyMoveInput) :
    0 ≤ (classifyMove input).deltaCp := by
  rw [classifyMove_deltaCp_eq]
  exact le_max_left _ _

/-- C9: when all three evaluations are plain centipawn numbers, the
computed loss is `max 0 (playedEvalAfter - bestEvalAfter)` (the played
evaluation minus the best evaluation), for either side to move; and the
second harness input (before 10, best 120, played -40, white) yields
`deltaCp = 0` and BEST. -/
theorem classifyMove_deltaCp_played_minus_best :
    (∀ (before best played : Int) (side : Side) (am sac : Option Bool)
        (mc : Option Int),
      (classifyMove
        { evalBefore := .cp before, bestEvalAfter := .cp best,
          playedEvalAfter := .cp played, sideToMove := side,
          allowsMate := am, isSacrifice := sac,
          materialChangeCp := mc }).deltaCp = max 0 (played - best)) ∧
    classifyMove
      { evalBefore := .cp 10, bestEvalAfter := .cp 120,
        playedEvalAfter := .cp (-40), sideToMove := .w } =
      { classification := .BEST, deltaCp := 0 } := by
  constructor
  · intro before best played side am sac mc
    rw [classifyMove_deltaCp_eq]
    cases side <;>
      simp [evalToWhiteCp, toMoverPerspective, Side.flip] <;>
      congr 1 <;> ring
  · rfl

/-- C4: with no mate override, no sacrifice flag and no material drop
of 100cp or more, the classification is determined solely by `deltaCp`
through the inclusive thresholds 10/25/60/120/300. -/
theorem classifyMove_threshold_only (input : ClassifyMoveInput)
    (h1 : input.allowsMate = none ∨ input.allowsMate = some false)
    (h2 : input.isSacrifice = none ∨ input.isSacrifice = some false)
    (h3 : input.materialChangeCp = none ∨
      ∃ v, input.materialChangeCp = some v ∧ (-100 : Int) < v) :
    (classifyMove input).classification =
      (if (classifyMove input).deltaCp ≤ 10 then .BEST
       else if (classifyMove input).deltaCp ≤ 25 then .EXCELLENT
       else if (classifyMove input).deltaCp ≤ 60 then .GOOD
       else if (classifyMove input).deltaCp ≤ 120 then .INACCURACY
       else if (classifyMove input).deltaCp ≤ 300 then .MISTAKE
       else .BLUNDER) := by
  have ha : input.allowsMate.getD false = false := by
    rcases h1 with h | h <;> simp [h]
  have hs : input.isSacrifice.getD false = false := by
    rcases h2 with h | h <;> simp [h]
  have hm : ¬ (input.materialChangeCp.getD 0 ≤ -100) := by
    rcases h3 with h | ⟨v, hv, hlt⟩
    · rw [h]; simp only [Option.getD_none]; omega
    · rw [hv]; simp only [Option.getD_some]; omega
  simp only [classifyMove_deltaCp_eq]
  simp [classifyMove, ha, hs, hm, thresholdClassification]

theorem classifyMove_threshold_only_witness :
    (({ evalBefore := .cp 0, bestEvalAfter := .cp 0,
        playedEvalAfter := .cp 160, sideToMove := .w,
        materialChangeCp := some (-50) } : ClassifyMoveInput).allowsMate = none ∨
     ({ evalBefore := .cp 0, bestEvalAfter := .cp 0,
        playedEvalAfter := .cp 160, sideToMove := .w,
        materialChangeCp := some (-50) } : ClassifyMoveInput).allowsMate = some false) ∧
    (classifyMove
      { evalBefore := .cp 0, bestEvalAfter := .cp 0,
        playedEvalAfter := .cp 160, sideToMove := .w,
        materialChangeCp := some (-50) }).classification =
      (if (classifyMove
            { evalBefore := .cp 0, bestEvalAfter := .cp 0,
              playedEvalAfter := .cp 160, sideToMove := .w,
              materialChangeCp := some (-50) }).deltaCp ≤ 10 then .BEST
       else if (classifyMove
            { evalBefore := .cp 0, bestEvalAfter := .cp 0,
              playedEvalAfter := .cp 160, sideToMove := .w,
              materialChangeCp := some (-50) }).deltaCp ≤ 25 then .EXCELLENT
       else if (classifyMove
            { evalBefore := .cp 0, bestEvalAfter := .cp 0,
              playedEvalAfter := .cp 160, sideToMove := .w,
              materialChangeCp := some (-50) }).deltaCp ≤ 60 then .GOOD
       else if (classifyMove
            { evalBefore := .cp 0, bestEvalAfter := .cp 0,
              playedEvalAfter := .cp 160, sideToMove := .w,
              materialChangeCp := some (-50) }).deltaCp ≤ 120 then .INACCURACY
       else if (classifyMove
            { evalBefore := .cp 0, bestEvalAfter := .cp 0,
              playedEvalAfter := .cp 160, sideToMove := .w,
              materialChangeCp := some (-50) }).deltaCp ≤ 300 then .MISTAKE
       else .BLUNDER) :=
  ⟨Or.inl rfl,
    classifyMove_threshold_only _ (Or.inl rfl) (Or.inl rfl)
      (Or.inr ⟨-50, rfl, by decide⟩)⟩

/-- Flooring any classification at MISTAKE yields a severity rank no
better than MISTAKE's. -/
lemma severityRank_minSeverity_mistake (c : MoveClassification) :
    severityRank (minSeverity c .MISTAKE) ≤ severityRank .MISTAKE := by
  cases c <;> decide

lemma minSeverity_mistake_ne_best (c : MoveClassification) :
    minSeverity c .MISTAKE ≠ .BEST := by
  cases c <;> decide

lemma minSeverity_mistake_ne_excellent (c : MoveClassification) :
    minSeverity c .MISTAKE ≠ .EXCELLENT := by
  cases c <;> decide

/-- The BRILLIANT upgrade does not fire when the current classification
is neither BEST nor EXCELLENT. -/
lemma brilliant_guard_skip (c : MoveClassification) (d : Int) (P : Prop)
    [Decidable P] (hb : c ≠ .BEST) (he : c ≠ .EXCELLENT) :
    (if (c = .BEST ∨ c = .EXCELLENT) ∧ P then
        ({ classification := .BRILLIANT, deltaCp := d } : ClassifyMoveOutput)
      else { classification := c, deltaCp := d }) =
      { classification := c, deltaCp := d } := by
  rw [if_neg]
  rintro ⟨hor, -⟩
  exact hor.elim hb he

/-- C5: with no mate override and an immediate material loss of at
least 100cp, a loss of `deltaCp ≥ 120` is floored to no better than
MISTAKE in the severity order, and a loss of `deltaCp > 300` is
escalated to exactly BLUNDER. -/
theorem classifyMove_material_floor (input : ClassifyMoveInput)
    (h1 : input.allowsMate = none ∨ input.allowsMate = some false)
    (hm : input.materialChangeCp.getD 0 ≤ -100) :
    ((classifyMove input).deltaCp ≥ 120 →
      severityRank (classifyMove input).classification ≤
        severityRank .MISTAKE) ∧
    ((classifyMove input).deltaCp > 300 →
      (classifyMove input).classification = .BLUNDER) := by
  have ha : input.allowsMate.getD false = false := by
    rcases h1 with h | h <;> simp [h]
  simp only [classifyMove_deltaCp_eq]
  simp only [classifyMove, ha, Bool.false_eq_true, if_false,
    eq_true hm, true_and]
  set d := max 0
    (toMoverPerspective
        (evalToWhiteCp input.bestEvalAfter input.sideToMove.flip)
        input.sideToMove -
      toMoverPerspective
        (evalToWhiteCp input.playedEvalAfter input.sideToMove.flip)
        input.sideToMove) with hd
  constructor
  · intro h120
    rw [if_pos h120]
    rcases le_or_lt d 300 with h3 | h3
    · rw [if_neg (show ¬ d > 300 by omega)]
      rw [brilliant_guard_skip _ _ _ (minSeverity_mistake_ne_best _)
        (minSeverity_mistake_ne_excellent _)]
      exact severityRank_minSeverity_mistake _
    · rw [if_pos h3]
      rw [brilliant_guard_skip _ _ _ (by decide) (by decide)]
      show severityRank MoveClassification.BLUNDER ≤
        severityRank MoveClassification.MISTAKE
      decide
  · intro h300
    rw [if_pos (show d ≥ 120 by omega), if_pos h300]
    rw [brilliant_guard_skip _ _ _ (by decide) (by decide)]

theorem classifyMove_material_floor_witness :
    (({ evalBefore := .cp 0, bestEvalAfter := .cp 0,
        playedEvalAfter := .cp 400, sideToMove := .w,
        materialChangeCp := some (-150) } : ClassifyMoveInput).allowsMate = none ∨
     ({ evalBefore := .cp 0, bestEvalAfter := .cp 0,
        playedEvalAfter := .cp 400, sideToMove := .w,
        materialChangeCp := some (-150) } : ClassifyMoveInput).allowsMate = some false) ∧
    ({ evalBefore := .cp 0, bestEvalAfter := .cp 0,
       playedEvalAfter := .cp 400, sideToMove := .w,
       materialChangeCp := some (-150) } : ClassifyMoveInput).materialChangeCp.getD 0 ≤ -100 ∧
    severityRank
        (classifyMove
          { evalBefore := .cp 0, bestEvalAfter := .cp 0,
            playedEvalAfter := .cp 400, sideToMove := .w,
            materialChangeCp := some (-150) }).classification ≤
      severityRank .MISTAKE ∧
    (classifyMove
      { evalBefore := .cp 0, bestEvalAfter := .cp 0,
        playedEvalAfter := .cp 400, sideToMove := .w,
        materialChangeCp := some (-150) }).classification = .BLUNDER :=
  ⟨Or.inl rfl, by decide,
    (classifyMove_material_floor _ (Or.inl rfl) (by decide)).1 (by decide),
    (classifyMove_material_floor _ (Or.inl rfl) (by decide)).2 (by decide)⟩

/-! ## Worker line parsing (src/engine/stockfish.worker.ts)

JS strings are `List Char`. `jsSplitWs` models `line.split(/\s+/)`
field by field: a maximal whitespace run separates fields, a leading
run produces an empty first field, a trailing run produces an empty
last field, and the empty string yields `[[]]`. `jsTrim` models
`String.prototype.trim`, `startsWithChars pat l` models
`l.startsWith(pat)`. -/

/-- Worker of `jsSplitWs`.  `acc` holds the current field, reversed;
`inSep` records that the scanner is inside a whitespace run whose
field has already been emitted (so further whitespace is part of the
same `/\\s+/` separator). -/
def splitWsAux : List Char → List Char → Bool → List (List Char)
  | [], acc, _ => [acc.reverse]
  | c :: cs, acc, inSep =>
    if c.isWhitespace then
      if inSep then splitWsAux cs [] true
      else acc.reverse :: splitWsAux cs [] true
    else splitWsAux cs (c :: acc) false

/-- `line.split(/\s+/)` on char lists. -/
def jsSplitWs (l : List Char) : List (List Char) := splitWsAux l [] false

/-- `parseBestMove` (stockfish.worker.ts line 116):
`line.split(/\s+/)[1] ?? "0000"`. -/
def parseBestMove (line : List Char) : List Char :=
  match (jsSplitWs line)[1]? with
  | some t => t
  | none => ("0000").data

/-- `String.prototype.trim`. -/
def jsTrim (l : List Char) : List Char :=
  ((l.dropWhile Char.isWhitespace).reverse.dropWhile Char.isWhitespace).reverse

/-- `l.startsWith(pat)` (pattern first). -/
def startsWithChars : List Char → List Char → Bool
  | [], _ => true
  | _ :: _, [] => false
  | p :: ps, c :: cs => c == p && startsWithChars ps cs

/-- `Score = { type: "cp" | "mate"; value: number }`. -/
inductive ScoreKind where
  | cp
  | mate
deriving DecidableEq, Repr

/-- The worker's `Score` record. -/
structure Score where
  type : ScoreKind
  value : Int
deriving DecidableEq, Repr

/-- JS `\w` (regex word character): `[A-Za-z0-9_]`. -/
def isWordChar (c : Char) : Bool := c.isAlphanum || c == '_'

/-- Consume an exact literal from the front, or fail. -/
def dropExact : List Char → List Char → Option (List Char)
  | [], l => some l
  | _ :: _, [] => none
  | p :: ps, c :: cs => if c == p then dropExact ps cs else none

/-- Decimal value of a digit run (JS `Number` on a digit string). -/
def digitsToNat (ds : List Char) : Nat :=
  ds.foldl (fun a c => 10 * a + (c.toNat - ('0').toNat)) 0

/-- The trailing `\b` of the score regex: the next character (if any)
must not be a word character.  Because the digit run is taken
maximally, checking only the maximal run is equivalent to the regex's
backtracking (a shorter digit run always leaves a digit, i.e. a word
character, on its right). -/
def boundaryOk : List Char → Bool
  | [] => true
  | c :: _ => !(isWordChar c)

/-- Parse `(-?\d+)\b` at the front of `l`, returning the signed value. -/
def readSignedNumber (l : List Char) : Option Int :=
  let (neg, l2) :=
    match l with
    | '-' :: t => (true, t)
    | _ => (false, l)
  let ds := l2.takeWhile Char.isDigit
  let rest := l2.dropWhile Char.isDigit
  if ds.isEmpty then none
  else if boundaryOk rest then
    some (if neg then -(digitsToNat ds : Int) else (digitsToNat ds : Int))
  else none

/-- One anchored attempt of `score (cp|mate) (-?\d+)\b` at the front
of `l` (the leading `\b` is checked by the caller). -/
def scoreHere (l : List Char) : Option Score :=
  match dropExact (("score ").data) l with
  | none => none
  | some rest =>
    match dropExact (("cp ").data) rest with
    | some r2 => (readSignedNumber r2).map fun v => ⟨.cp, v⟩
    | none =>
      match dropExact (("mate ").data) rest with
      | some r2 => (readSignedNumber r2).map fun v => ⟨.mate, v⟩
      | none => none

/-- Leftmost match of `/\bscore (cp|mate) (-?\d+)\b/`: scan start
positions left to right; `prevWord` says whether the character to the
left is a word character (false at the start of the line). -/
def findScore : List Char → Bool → Option Score
  | [], _ => none
  | c :: cs, prevWord =>
    match (if prevWord then none else scoreHere (c :: cs)) with
    | some s => some s
    | none => findScore cs (isWordChar c)

/-- One anchored attempt of `pv (.+)$` at the front of `l`: the capture
is everything to the end of the line and must be nonempty. -/
def pvHere (l : List Char) : Option (List Char) :=
  match dropExact (("pv ").data) l with
  | some r => if r.isEmpty then none else some r
  | none => none

/-- Leftmost match of `/\bpv (.+)$/`. -/
def findPv : List Char → Bool → Option (List Char)
  | [], _ => none
  | c :: cs, prevWord =>
    match (if prevWord then none else pvHere (c :: cs)) with
    | some r => some r
    | none => findPv cs (isWordChar c)

/-- The worker's score/PV side-cache (`latestScore`, `latestPv`). -/
structure InfoCache where
  latestScore : Option Score
  latestPv : Option (List Char)
deriving Repr

/-- `parseInfoLine` (stockfish.worker.ts line 49) as a cache update:
non-`info ` lines are ignored; a score match overwrites `latestScore`;
a pv match overwrites `latestPv`. -/
def parseInfoLine (cache : InfoCache) (line : List Char) : InfoCache :=
  if startsWithChars (("info ").data) line then
    let c1 :=
      match findScore line false with
      | some s => { cache with latestScore := some s }
      | none => cache
    match findPv line false with
    | some pv => { c1 with latestPv := some pv }
    | none => c1
  else cache

/-- Does a line update `latestScore`?  (an `info ` line whose body
matches the score regex). -/
def carriesScore (l : List Char) : Bool :=
  startsWithChars (("info ").data) l && (findScore l false).isSome

/-- The shape of the worker's `analyze:ok` payload. -/
structure AnalyzeOutcome where
  bestmove : List Char
  score : Score
  principalVariation : Option (List Char)
deriving Repr

/-- Result assembly of the worker's `analyzePosition` (stockfish.worker.ts
lines 121-148): the exchange clears the side-cache, `onEngineLine`
mines every line received during the exchange through `parseInfoLine`,
and once the `bestmove` waiter resolves the worker returns
`{bestmove: parseBestMove(line), score: latestScore ?? {cp,0},
principalVariation: latestPv}`. -/
def analyzeOutcome (lines : List (List Char)) (bestmoveLine : List Char) :
    AnalyzeOutcome :=
  let cache := lines.foldl parseInfoLine
    { latestScore := none, latestPv := none }
  { bestmove := parseBestMove bestmoveLine,
    score := cache.latestScore.getD { type := .cp, value := 0 },
    principalVariation := cache.latestPv }

/-- If no processed line carries a score, the `latestScore` cache stays
clear across `onEngineLine`'s mining. -/
lemma foldl_parseInfoLine_score_none (lines : List (List Char)) :
    ∀ cache : InfoCache, (∀ l ∈ lines, carriesScore l = false) →
      cache.latestScore = none →
      (lines.foldl parseInfoLine cache).latestScore = none := by
  induction lines with
  | nil => intro cache _ h0; simpa using h0
  | cons l ls ih =>
    intro cache hall h0
    have hl : carriesScore l = false := hall l (by simp)
    have hstep : (parseInfoLine cache l).latestScore = none := by
      unfold parseInfoLine
      by_cases hi : startsWithChars (("info ").data) l = true
      · have hf : findScore l false = none := by
          unfold carriesScore at hl
          rw [hi] at hl
          simp only [Bool.true_and] at hl
          cases hfs : findScore l false with
          | none => rfl
          | some s => rw [hfs] at hl; simp at hl
        rw [if_pos hi, hf]
        cases hp : findPv l false <;> simp [hp, h0]
      · rw [if_neg hi]
        exact h0
    refine ih _ (fun x hx => hall x (by simp [hx])) hstep

/-- C8: `analyzePosition` degrades rather than fails on malformed or
missing payloads: a result-terminator line with no second
whitespace-separated field yields the `"0000"` null-move sentinel, and
an exchange during which no `info` line carried a score yields the
default score of 0 centipawns. -/
theorem analyzeOutcome_tolerates_malformed (lines : List (List Char))
    (bestmoveLine : List Char)
    (hb : (jsSplitWs bestmoveLine)[1]? = none)
    (hs : ∀ l ∈ lines, carriesScore l = false) :
    (analyzeOutcome lines bestmoveLine).bestmove = ("0000").data ∧
    (analyzeOutcome lines bestmoveLine).score = { type := .cp, value := 0 } := by
  constructor
  · simp [analyzeOutcome, parseBestMove, hb]
  · have hnone :=
      foldl_parseInfoLine_score_none lines
        { latestScore := none, latestPv := none } hs rfl
    simp [analyzeOutcome, hnone]

theorem analyzeOutcome_tolerates_malformed_witness :
    (jsSplitWs (("bestmove").data))[1]? = none ∧
    (∀ l ∈ [("info depth 3 nodes 7").data], carriesScore l = false) ∧
    (analyzeOutcome [("info depth 3 nodes 7").data]
        (("bestmove").data)).bestmove = ("0000").data ∧
    (analyzeOutcome [("info depth 3 nodes 7").data]
        (("bestmove").data)).score = { type := .cp, value := 0 } := by
  refine ⟨by decide, by decide, ?_⟩
  exact analyzeOutcome_tolerates_malformed _ _ (by decide) (by decide)

/-- A successful `startsWith` exhibits the string as pattern ++ tail. -/
lemma startsWithChars_append :
    ∀ p l : List Char, startsWithChars p l = true → ∃ t, l = p ++ t
  | [], l, _ => ⟨l, rfl⟩
  | p :: ps, [], h => by simp [startsWithChars] at h
  | p :: ps, c :: cs, h => by
    simp only [startsWithChars, Bool.and_eq_true, beq_iff_eq] at h
    obtain ⟨t, ht⟩ := startsWithChars_append ps cs h.2
    exact ⟨t, by simp [h.1, ht]⟩

/-- Head of the splitter in field-building mode: the current
accumulator extended by the leading run of non-whitespace. -/
lemma splitWsAux_head_false :
    ∀ (l acc : List Char),
      (splitWsAux l acc false).head? =
        some (acc.reverse ++ l.takeWhile (fun c => !c.isWhitespace)) := by
  intro l
  induction l with
  | nil => intro acc; simp [splitWsAux]
  | cons c cs ih =>
    intro acc
    by_cases hc : c.isWhitespace
    · simp [splitWsAux, hc, List.takeWhile_cons]
    · rw [show splitWsAux (c :: cs) acc false =
          splitWsAux cs (c :: acc) false from by simp [splitWsAux, hc]]
      rw [ih (c :: acc)]
      simp [List.takeWhile_cons, hc]

/-- Head of the splitter in separator-skipping mode: the first
non-whitespace run after the separator (empty if the line ends). -/
lemma splitWsAux_head_true :
    ∀ l : List Char,
      (splitWsAux l [] true).head? =
        some ((l.dropWhile Char.isWhitespace).takeWhile
          (fun c => !c.isWhitespace)) := by
  intro l
  induction l with
  | nil => simp [splitWsAux]
  | cons c cs ih =>
    by_cases hc : c.isWhitespace
    · simpa [splitWsAux, hc, List.dropWhile_cons] using ih
    · simp [splitWsAux, hc, List.dropWhile_cons, splitWsAux_head_false,
        List.takeWhile_cons]

/-- Consuming a run of non-whitespace characters just extends the
accumulator. -/
lemma splitWsAux_chunk :
    ∀ (tk rest acc : List Char), (∀ c ∈ tk, c.isWhitespace = false) →
      splitWsAux (tk ++ rest) acc false =
        splitWsAux rest (tk.reverse ++ acc) false := by
  intro tk
  induction tk with
  | nil => intro rest acc _; simp
  | cons c tk' ih =>
    intro rest acc hall
    have hc : c.isWhitespace = false := hall c (by simp)
    simp only [List.cons_append]
    rw [show splitWsAux (c :: (tk' ++ rest)) acc false =
        splitWsAux (tk' ++ rest) (c :: acc) false from by simp [splitWsAux, hc]]
    rw [ih rest (c :: acc) (fun x hx => hall x (by simp [hx]))]
    simp

/-- The head of `dropWhile p` falsifies `p`. -/
lemma head?_dropWhile_false :
    ∀ (p : Char → Bool) (l : List Char) (c : Char),
      (List.dropWhile p l).head? = some c → p c = false := by
  intro p l
  induction l with
  | nil => intro c h; simp at h
  | cons a t ih =>
    intro c h
    by_cases ha : p a
    · exact ih c (by simpa [List.dropWhile_cons, ha] using h)
    · rw [List.dropWhile_cons, if_neg (by simp [ha])] at h
      simp only [List.head?_cons, Option.some.injEq] at h
      rw [← h]
      simp [ha]

/-- The last character of a trimmed line is not whitespace. -/
lemma jsTrim_getLast_not_ws (l : List Char) (c : Char)
    (h : (jsTrim l).getLast? = some c) : c.isWhitespace = false := by
  unfold jsTrim at h
  rw [List.getLast?_reverse] at h
  exact head?_dropWhile_false _ _ _ h

/-- C10: any trimmed line matching the bestmove waiter's predicate
(`line.startsWith("bestmove ")` on a trimmed line) splits into a
defined, nonempty second field, so `parseBestMove`'s `"0000"` fallback
branch is unreachable inside the worker's `analyzePosition`: the
returned move is always the actual second field of the line. -/
theorem bestmove_waiter_second_token (raw : List Char)
    (h : startsWithChars (("bestmove ").data) (jsTrim raw) = true) :
    ∃ w, (jsSplitWs (jsTrim raw))[1]? = some w ∧ w ≠ [] ∧
      parseBestMove (jsTrim raw) = w := by
  obtain ⟨rest, hline⟩ := startsWithChars_append _ _ h
  have hdecomp : jsTrim raw = ("bestmove").data ++ (' ' :: rest) := by
    rw [hline]; rfl
  have hrest_ne : rest ≠ [] := by
    intro h0
    subst h0
    have hlast : (jsTrim raw).getLast? = some ' ' := by
      rw [hdecomp]; decide
    have hws := jsTrim_getLast_not_ws raw ' ' hlast
    exact absurd hws (by decide)
  obtain ⟨cl, hcl⟩ : ∃ cl, rest.getLast? = some cl := by
    cases hr : rest.getLast? with
    | none => exact absurd (List.getLast?_eq_none_iff.mp hr) hrest_ne
    | some c => exact ⟨c, rfl⟩
  have hlast_line : (jsTrim raw).getLast? = some cl := by
    rw [hdecomp,
      show ("bestmove").data ++ (' ' :: rest) =
        (("bestmove").data ++ [' ']) ++ rest from by simp,
      List.getLast?_append_of_ne_nil _ hrest_ne]
    exact hcl
  have hcl_ws : cl.isWhitespace = false := jsTrim_getLast_not_ws raw cl hlast_line
  have hdrop_ne : rest.dropWhile Char.isWhitespace ≠ [] := by
    intro h0
    have hall := List.dropWhile_eq_nil_iff.mp h0
    have hmem : cl ∈ rest := by
      have hmo : cl ∈ rest.getLast? := by rw [hcl]; rfl
      obtain ⟨hne, heq⟩ := List.mem_getLast?_eq_getLast hmo
      rw [heq]
      exact List.getLast_mem hne
    rw [hall cl hmem] at hcl_ws
    cases hcl_ws
  obtain ⟨c1, t1, hdrop⟩ :
      ∃ c1 t1, rest.dropWhile Char.isWhitespace = c1 :: t1 := by
    cases hd : rest.dropWhile Char.isWhitespace with
    | nil => exact absurd hd hdrop_ne
    | cons a b => exact ⟨a, b, rfl⟩
  have hc1 : c1.isWhitespace = false :=
    head?_dropWhile_false _ rest c1 (by rw [hdrop]; rfl)
  have hsplit : jsSplitWs (jsTrim raw) =
      ("bestmove").data :: splitWsAux rest [] true := by
    rw [hdecomp]
    unfold jsSplitWs
    rw [splitWsAux_chunk (("bestmove").data) (' ' :: rest) [] (by decide)]
    rw [show splitWsAux (' ' :: rest) (("bestmove").data.reverse ++ []) false =
        (("bestmove").data.reverse ++ []).reverse ::
          splitWsAux rest [] true from by simp [splitWsAux]]
    simp
  have hcons1 : ∀ (x : List Char) (ys : List (List Char)),
      (x :: ys)[1]? = ys.head? := by
    intro x ys
    cases ys <;> simp
  have hw : (jsSplitWs (jsTrim raw))[1]? =
      some ((rest.dropWhile Char.isWhitespace).takeWhile
        (fun c => !c.isWhitespace)) := by
    rw [hsplit, hcons1, splitWsAux_head_true]
  refine ⟨_, hw, ?_, ?_⟩
  · rw [hdrop]
    simp [List.takeWhile_cons, hc1]
  · unfold parseBestMove
    rw [hw]

theorem bestmove_waiter_second_token_witness :
    startsWithChars (("bestmove ").data)
        (jsTrim ((" bestmove e2e4 ").data)) = true ∧
    ∃ w, (jsSplitWs (jsTrim ((" bestmove e2e4 ").data)))[1]? = some w ∧
      w ≠ [] ∧ parseBestMove (jsTrim ((" bestmove e2e4 ").data)) = w :=
  ⟨by decide, bestmove_waiter_second_token _ (by decide)⟩

/-! ## Router waiters (src/engine/stockfish.worker.ts, lines 27-91)

The worker is single-threaded: each turn of its event loop is one
event.  `Ev.line` is one `engineWorker.onmessage` delivery running
`onEngineLine`, `Ev.fire` is one timer callback created by
`waitForLine` (per the platform's timer semantics a cleared or already
fired timer's callback does not run, hence the `timersArmed` guard),
and `Ev.register` is the synchronous body of `waitForLine` (push the
waiter, arm its timer).  Waiters are identified by registration order;
`log` records each settlement, `true` for resolve-on-match, `false`
for reject-on-timeout. -/

namespace Router

/-- A registered `LineWaiter`: its identity and its `match` predicate. -/
structure Waiter where
  wid : Nat
  matchFn : List Char → Bool

/-- Router state: the `lineWaiters` array, the ids whose timeout is
still armed, the next fresh id, and the settlement log. -/
structure RouterState where
  lineWaiters : List Waiter
  timersArmed : List Nat
  nextId : Nat
  log : List (Nat × Bool)

def initState : RouterState := ⟨[], [], 0, []⟩

/-- One event-loop turn. -/
inductive Ev where
  | register (p : List Char → Bool)
  | line (l : List Char)
  | fire (i : Nat)

/-- `onEngineLine` (lines 62-72): every matching waiter (not just the
first) has its timer cleared, is removed from the list, and is
resolved. -/
def onEngineLine (l : List Char) (s : RouterState) : RouterState :=
  let matched := s.lineWaiters.filter (fun w => w.matchFn l)
  { lineWaiters := s.lineWaiters.filter (fun w => !(w.matchFn l)),
    timersArmed := s.timersArmed.filter
      (fun i => !((matched.map Waiter.wid).contains i)),
    nextId := s.nextId,
    log := s.log ++ matched.map (fun w => (w.wid, true)) }

/-- The transition function.  `fire i` models the timeout callback of
waiter `i` (lines 82-86): it removes the waiter from the list if still
present and rejects; it can only run while the timer is armed. -/
def step (s : RouterState) : Ev → RouterState
  | .register p =>
    { lineWaiters := s.lineWaiters ++ [⟨s.nextId, p⟩],
      timersArmed := s.timersArmed ++ [s.nextId],
      nextId := s.nextId + 1,
      log := s.log }
  | .line l => onEngineLine l s
  | .fire i =>
    if i ∈ s.timersArmed then
      { lineWaiters := s.lineWaiters.filter (fun w => w.wid != i),
        timersArmed := s.timersArmed.filter (fun j => j != i),
        nextId := s.nextId,
        log := s.log ++ [(i, false)] }
    else s

def run (events : List Ev) : RouterState := events.foldl step initState

end Router


namespace Router

/-- The router's waiter-ownership invariant. -/
structure Inv (s : RouterState) : Prop where
  timers_eq : s.timersArmed = s.lineWaiters.map Waiter.wid
  wid_lt : ∀ w ∈ s.lineWaiters, w.wid < s.nextId
  wid_nodup : (s.lineWaiters.map Waiter.wid).Nodup
  log_lt : ∀ e ∈ s.log, e.1 < s.nextId
  log_nodup : (s.log.map Prod.fst).Nodup
  log_timers : ∀ e ∈ s.log, e.1 ∉ s.timersArmed
  covered : ∀ i, i < s.nextId →
    (∃ b, (i, b) ∈ s.log) ∨ i ∈ s.timersArmed

lemma router_inv_init : Inv initState := by
  constructor <;> simp [initState]

lemma contains_wid_iff (m : List Waiter) (i : Nat) :
    (m.map Waiter.wid).contains i = true ↔ i ∈ m.map Waiter.wid :=
  List.elem_iff

lemma router_inv_step (s : RouterState) (e : Ev) (hs : Inv s) : Inv (step s e) := by
  obtain ⟨ht, hwlt, hwnd, hllt, hlnd, hlt, hcov⟩ := hs
  cases e with
  | register p =>
    refine ⟨?_, ?_, ?_, ?_, ?_, ?_, ?_⟩
    · simp only [step]
      rw [ht]
      simp
    · intro w hw
      simp only [step, List.mem_append, List.mem_singleton] at hw
      simp only [step]
      rcases hw with hw | hw
      · exact Nat.lt_succ_of_lt (hwlt w hw)
      · rw [hw]
        exact Nat.lt_succ_self _
    · simp only [step, List.map_append, List.map_cons, List.map_nil]
      rw [List.nodup_append]
      refine ⟨hwnd, by simp, ?_⟩
      intro a ha hb
      simp only [List.mem_cons, List.not_mem_nil, or_false] at hb
      rw [hb] at ha
      obtain ⟨w, hw, hwid⟩ := List.mem_map.mp ha
      exact absurd hwid (Nat.ne_of_lt (hwlt w hw))
    · intro e he
      simp only [step] at he
      simp only [step]
      exact Nat.lt_succ_of_lt (hllt e he)
    · exact hlnd
    · intro e he hmem
      simp only [step, List.mem_append, List.mem_singleton] at hmem
      rcases hmem with hm | hm
      · exact hlt e he hm
      · exact absurd hm (Nat.ne_of_lt (hllt e he))
    · intro i hi
      simp only [step] at hi ⊢
      rcases Nat.lt_succ_iff_lt_or_eq.mp hi with hi | hi
      · rcases hcov i hi with hl | htm
        · exact Or.inl hl
        · exact Or.inr (List.mem_append_left _ htm)
      · exact Or.inr (List.mem_append_right _ (by simp [hi]))
  | line l =>
    have hinj : ∀ x ∈ s.lineWaiters, ∀ y ∈ s.lineWaiters,
        x.wid = y.wid → x = y :=
      fun x hx y hy => List.inj_on_of_nodup_map hwnd hx hy
    have hcontains : ∀ w ∈ s.lineWaiters,
        ((s.lineWaiters.filter (fun w => w.matchFn l)).map Waiter.wid).contains
          w.wid = w.matchFn l := by
      intro w hw
      cases hmatch : w.matchFn l with
      | true =>
        exact (contains_wid_iff _ _).mpr
          (List.mem_map_of_mem _ (List.mem_filter.mpr ⟨hw, hmatch⟩))
      | false =>
        cases hcon : ((s.lineWaiters.filter
            (fun w => w.matchFn l)).map Waiter.wid).contains w.wid with
        | false => rfl
        | true =>
          obtain ⟨w2, hw2, hwid⟩ :=
            List.mem_map.mp ((contains_wid_iff _ _).mp hcon)
          obtain ⟨hw2m, hmatch2⟩ := List.mem_filter.mp hw2
          rw [hinj w2 hw2m w hw hwid, hmatch] at hmatch2
          cases hmatch2
    refine ⟨?_, ?_, ?_, ?_, ?_, ?_, ?_⟩
    · simp only [step, onEngineLine]
      rw [ht, List.filter_map]
      exact congrArg (List.map Waiter.wid)
        (List.filter_congr (fun w hw => by
          simp only [Function.comp_apply]
          rw [hcontains w hw]))
    · intro w hw
      simp only [step, onEngineLine] at hw ⊢
      exact hwlt w (List.mem_of_mem_filter hw)
    · simp only [step, onEngineLine]
      exact hwnd.sublist ((List.filter_sublist _).map _)
    · intro e he
      simp only [step, onEngineLine, List.mem_append] at he
      simp only [step, onEngineLine]
      rcases he with he | he
      · exact hllt e he
      · obtain ⟨w, hw, hwe⟩ := List.mem_map.mp he
        rw [← hwe]
        exact hwlt w (List.mem_of_mem_filter hw)
    · simp only [step, onEngineLine, List.map_append, List.map_map]
      rw [show (Prod.fst ∘ fun w : Waiter => (w.wid, true)) = Waiter.wid
        from rfl]
      rw [List.nodup_append]
      refine ⟨hlnd, hwnd.sublist ((List.filter_sublist _).map _), ?_⟩
      intro a ha hb
      obtain ⟨e, he, hea⟩ := List.mem_map.mp ha
      obtain ⟨w, hw, hwa⟩ := List.mem_map.mp hb
      apply hlt e he
      rw [ht]
      exact List.mem_map.mpr
        ⟨w, List.mem_of_mem_filter hw, hwa.trans hea.symm⟩
    · intro e he hmem
      simp only [step, onEngineLine, List.mem_append] at he
      simp only [step, onEngineLine, List.mem_filter] at hmem
      rcases he with he | he
      · exact hlt e he hmem.1
      · obtain ⟨w, hw, hwe⟩ := List.mem_map.mp he
        have he1 : e.1 = w.wid := by rw [← hwe]
        have hc : ((s.lineWaiters.filter
            (fun w => w.matchFn l)).map Waiter.wid).contains e.1 = true := by
          rw [he1]
          exact (contains_wid_iff _ _).mpr (List.mem_map_of_mem _ hw)
        rw [hc] at hmem
        simp at hmem
    · intro i hi
      simp only [step, onEngineLine] at hi ⊢
      rcases hcov i hi with ⟨b, hb⟩ | htm
      · exact Or.inl ⟨b, List.mem_append_left _ hb⟩
      · rw [ht] at htm
        obtain ⟨w, hw, hwid⟩ := List.mem_map.mp htm
        cases hmatch : w.matchFn l with
        | true =>
          refine Or.inl ⟨true, List.mem_append_right _ ?_⟩
          exact List.mem_map.mpr
            ⟨w, List.mem_filter.mpr ⟨hw, hmatch⟩, by rw [hwid]⟩
        | false =>
          refine Or.inr (List.mem_filter.mpr ⟨?_, ?_⟩)
          · rw [ht]
            exact htm
          · rw [← hwid, hcontains w hw, hmatch]
            rfl
  | fire i =>
    by_cases hmem : i ∈ s.timersArmed
    · simp only [step, if_pos hmem]
      obtain ⟨wi, hwi, hwidi⟩ := List.mem_map.mp (ht ▸ hmem)
      refine ⟨?_, ?_, ?_, ?_, ?_, ?_, ?_⟩
      · rw [ht, List.filter_map]
        exact congrArg (List.map Waiter.wid)
          (List.filter_congr (fun w hw => rfl))
      · intro w hw
        exact hwlt w (List.mem_of_mem_filter hw)
      · exact hwnd.sublist ((List.filter_sublist _).map _)
      · intro e he
        rcases List.mem_append.mp he with he | he
        · exact hllt e he
        · simp only [List.mem_singleton] at he
          rw [he, ← hwidi]
          exact hwlt wi hwi
      · rw [List.map_append]
        rw [List.nodup_append]
        refine ⟨hlnd, by simp, ?_⟩
        intro a ha hb
        simp only [List.map_cons, List.map_nil, List.mem_cons,
          List.not_mem_nil, or_false] at hb
        obtain ⟨e, he, hea⟩ := List.mem_map.mp ha
        apply hlt e he
        rw [hea, hb]
        exact hmem
      · intro e he hin
        obtain ⟨hin1, hin2⟩ := List.mem_filter.mp hin
        rcases List.mem_append.mp he with he | he
        · exact hlt e he hin1
        · simp only [List.mem_singleton] at he
          rw [he] at hin2
          simp at hin2
      · intro j hj
        rcases hcov j hj with ⟨b, hb⟩ | htm
        · exact Or.inl ⟨b, List.mem_append_left _ hb⟩
        · by_cases hji : j = i
          · exact Or.inl ⟨false, List.mem_append_right _ (by simp [hji])⟩
          · refine Or.inr (List.mem_filter.mpr ⟨htm, ?_⟩)
            simp [hji]
    · simp only [step, if_neg hmem]
      exact ⟨ht, hwlt, hwnd, hllt, hlnd, hlt, hcov⟩

lemma router_inv_run (events : List Ev) : Inv (run events) := by
  rw [run]
  induction events using List.reverseRecOn with
  | nil => exact router_inv_init
  | append_singleton es e ih =>
    rw [List.foldl_append, List.foldl_cons, List.foldl_nil]
    exact router_inv_step _ e ih

end Router

/-- C6: every waiter settles exactly once.  Over every event trace:
settlements are logged at most once per waiter (so a matching line
arriving after the waiter's timeout cannot settle it again); a waiter
still registered is unsettled; every registered waiter is settled or
still registered (with its timer armed); and firing the armed timeout
of a pending waiter rejects it (settling it exactly once in total,
since its timer is guaranteed to fire eventually). -/
theorem waiter_settles_exactly_once (events : List Router.Ev) :
    (((Router.run events).log.map Prod.fst).Nodup) ∧
    (∀ w ∈ (Router.run events).lineWaiters, ∀ b : Bool,
      (w.wid, b) ∉ (Router.run events).log) ∧
    (∀ i, i < (Router.run events).nextId →
      (∃ b, (i, b) ∈ (Router.run events).log) ∨
        i ∈ (Router.run events).timersArmed) ∧
    (∀ i ∈ (Router.run events).timersArmed,
      (Router.step (Router.run events) (.fire i)).log =
        (Router.run events).log ++ [(i, false)]) := by
  obtain ⟨ht, hwlt, hwnd, hllt, hlnd, hlt, hcov⟩ := Router.router_inv_run events
  refine ⟨hlnd, ?_, hcov, ?_⟩
  · intro w hw b hb
    apply hlt (w.wid, b) hb
    rw [ht]
    exact List.mem_map_of_mem _ hw
  · intro i hi
    simp only [Router.step, if_pos hi]

theorem waiter_settles_exactly_once_witness :
    0 ∈ (Router.run [Router.Ev.register (fun x => x == ("uciok").data),
        Router.Ev.line (("info depth 1").data)]).timersArmed ∧
    (Router.step
        (Router.run [Router.Ev.register (fun x => x == ("uciok").data),
          Router.Ev.line (("info depth 1").data)])
        (.fire 0)).log =
      (Router.run [Router.Ev.register (fun x => x == ("uciok").data),
        Router.Ev.line (("info depth 1").data)]).log ++ [(0, false)] :=
  ⟨by decide,
    (waiter_settles_exactly_once
      [Router.Ev.register (fun x => x == ("uciok").data),
        Router.Ev.line (("info depth 1").data)]).2.2.2 0 (by decide)⟩

/-! ## Handshake single-flight (src/engine/stockfish.worker.ts, lines 93-114)

`initEngine` memoizes its in-flight promise in `initPromise`.  One
event is one event-loop turn: `Ev.invoke` is the synchronous prologue
of an `initEngine` call (each concurrent `init()` caller, whether via
an `init` or an `analyze` request, performs one); `Ev.line` is a
trimmed engine line delivered to the handshake's current waiter;
`Ev.timeout` is the expiry of that waiter, whose rejection makes
`initEngine`'s catch clear `initPromise`.  `commands` is the log of
`postCommand` calls made by the handshake. -/

namespace InitM

/-- Where the memoized handshake stands: which acknowledgement line its
single in-flight waiter awaits, or `done` after `readyok` twice. -/
inductive Phase where
  | waitUciok
  | waitReadyok1
  | waitReadyok2
  | done
deriving DecidableEq, Repr

/-- `initPromise` (`none` = null) plus the `postCommand` log. -/
structure InitState where
  initPromise : Option Phase
  commands : List (List Char)
deriving DecidableEq, Repr

def initState : InitState := ⟨none, []⟩

inductive Ev where
  | invoke
  | line (l : List Char)
  | timeout
deriving DecidableEq, Repr

/-- One event-loop turn of the worker around `initEngine`. -/
def step (s : InitState) : Ev → InitState
  | .invoke =>
    match s.initPromise with
    | some _ => s
    | none =>
      { initPromise := some .waitUciok,
        commands := s.commands ++ [("uci").data] }
  | .line l =>
    match s.initPromise with
    | some .waitUciok =>
      if l = ("uciok").data then
        { initPromise := some .waitReadyok1,
          commands := s.commands ++ [("isready").data] }
      else s
    | some .waitReadyok1 =>
      if l = ("readyok").data then
        { initPromise := some .waitReadyok2,
          commands := s.commands ++ [("ucinewgame").data, ("isready").data] }
      else s
    | some .waitReadyok2 =>
      if l = ("readyok").data then { s with initPromise := some .done }
      else s
    | _ => s
  | .timeout =>
    match s.initPromise with
    | some .waitUciok => { s with initPromise := none }
    | some .waitReadyok1 => { s with initPromise := none }
    | some .waitReadyok2 => { s with initPromise := none }
    | _ => s

def run (events : List Ev) : InitState := events.foldl step initState

/-- The full handshake command sequence. -/
def handshakeCommands : List (List Char) :=
  [("uci").data, ("isready").data, ("ucinewgame").data, ("isready").data]

/-- The commands already sent at each phase. -/
def commandsOf : Option Phase → List (List Char)
  | none => []
  | some .waitUciok => [("uci").data]
  | some .waitReadyok1 => [("uci").data, ("isready").data]
  | some .waitReadyok2 => handshakeCommands
  | some .done => handshakeCommands

end InitM

namespace InitM

/-- While no handshake step has timed out, the command log is exactly
determined by the memoized phase, and a handshake is in flight iff
some `initEngine` call started one. -/
lemma no_timeout_run (events : List Ev) (h : Ev.timeout ∉ events) :
    (run events).commands = commandsOf (run events).initPromise ∧
    (Ev.invoke ∈ events ↔ (run events).initPromise ≠ none) := by
  rw [run]
  induction events using List.reverseRecOn with
  | nil => simp [initState, commandsOf]
  | append_singleton es e ih =>
    have hes : Ev.timeout ∉ es := fun hmem => h (List.mem_append_left _ hmem)
    have het : e ≠ Ev.timeout := fun he =>
      h (List.mem_append_right _ (by simp [he]))
    obtain ⟨ihc, ihi⟩ := ih hes
    rw [List.foldl_append, List.foldl_cons, List.foldl_nil]
    set s := es.foldl step initState with hs
    cases e with
    | invoke =>
      cases hp : s.initPromise with
      | none =>
        constructor
        · simp [step, hp, commandsOf, ihc, hp ▸ ihc]
        · simp [step, hp]
      | some ph =>
        constructor
        · simpa [step, hp] using ihc
        · simp [step, hp]
    | line l =>
      cases hp : s.initPromise with
      | none =>
        constructor
        · simpa [step, hp] using ihc
        · rw [show step s (Ev.line l) = s from by simp [step, hp]]
          simp only [List.mem_append, List.mem_singleton]
          constructor
          · rintro (hmem | hmem)
            · exact (ihi.mp hmem)
            · cases hmem
          · intro hne
            exact Or.inl (ihi.mpr hne)
      | some ph =>
        have hinv : Ev.invoke ∈ es := ihi.mpr (by simp [hp])
        have hc := ihc
        rw [hp] at hc
        cases ph with
        | waitUciok =>
          by_cases hl : l = ("uciok").data
          · constructor
            · simp [step, hp, hl, commandsOf, hc]
            · simp [step, hp, hl, List.mem_append, hinv]
          · constructor
            · simpa [step, hp, hl] using ihc
            · simp [step, hp, hl, List.mem_append, hinv]
        | waitReadyok1 =>
          by_cases hl : l = ("readyok").data
          · constructor
            · simp [step, hp, hl, commandsOf, hc, handshakeCommands]
            · simp [step, hp, hl, List.mem_append, hinv]
          · constructor
            · simpa [step, hp, hl] using ihc
            · simp [step, hp, hl, List.mem_append, hinv]
        | waitReadyok2 =>
          by_cases hl : l = ("readyok").data
          · constructor
            · simp [step, hp, hl, commandsOf, hc, handshakeCommands]
            · simp [step, hp, hl, List.mem_append, hinv]
          · constructor
            · simpa [step, hp, hl] using ihc
            · simp [step, hp, hl, List.mem_append, hinv]
        | done =>
          constructor
          · simpa [step, hp] using ihc
          · simp [step, hp, List.mem_append, hinv]
    | timeout => exact absurd rfl het

/-- Invariant once a handshake has started: the command log is a
prefix of the canonical handshake sequence, contains the
handshake-start command exactly once, and agrees with the in-flight
phase. -/
abbrev Inv2 (s : InitState) : Prop :=
  s.commands = handshakeCommands.take s.commands.length ∧
  s.commands.count (("uci").data) = 1 ∧
  (s.initPromise = some .waitUciok → s.commands = commandsOf (some .waitUciok)) ∧
  (s.initPromise = some .waitReadyok1 →
    s.commands = commandsOf (some .waitReadyok1)) ∧
  (s.initPromise = some .waitReadyok2 →
    s.commands = commandsOf (some .waitReadyok2)) ∧
  (s.initPromise = some .done → s.commands = handshakeCommands)

lemma inv2_step (s : InitState) (e : Ev) (he : e ≠ .invoke)
    (h : Inv2 s) : Inv2 (step s e) := by
  obtain ⟨hpfx, hcount, hw1, hw2, hw3, hd⟩ := h
  cases e with
  | invoke => exact absurd rfl he
  | line l =>
    cases hp : s.initPromise with
    | none =>
      rw [show step s (Ev.line l) = s from by simp [step, hp]]
      exact ⟨hpfx, hcount, hw1, hw2, hw3, hd⟩
    | some ph =>
      cases ph with
      | waitUciok =>
        by_cases hl : l = ("uciok").data
        · simp only [step, hp, if_pos hl]
          rw [hw1 hp]
          decide
        · rw [show step s (Ev.line l) = s from by simp [step, hp, hl]]
          exact ⟨hpfx, hcount, hw1, hw2, hw3, hd⟩
      | waitReadyok1 =>
        by_cases hl : l = ("readyok").data
        · simp only [step, hp, if_pos hl]
          rw [hw2 hp]
          decide
        · rw [show step s (Ev.line l) = s from by simp [step, hp, hl]]
          exact ⟨hpfx, hcount, hw1, hw2, hw3, hd⟩
      | waitReadyok2 =>
        by_cases hl : l = ("readyok").data
        · simp only [step, hp, if_pos hl]
          rw [hw3 hp]
          decide
        · rw [show step s (Ev.line l) = s from by simp [step, hp, hl]]
          exact ⟨hpfx, hcount, hw1, hw2, hw3, hd⟩
      | done =>
        rw [show step s (Ev.line l) = s from by simp [step, hp]]
        exact ⟨hpfx, hcount, hw1, hw2, hw3, hd⟩
  | timeout =>
    cases hp : s.initPromise with
    | none =>
      rw [show step s Ev.timeout = s from by simp [step, hp]]
      exact ⟨hpfx, hcount, hw1, hw2, hw3, hd⟩
    | some ph =>
      cases ph with
      | waitUciok =>
        simp only [step, hp]
        rw [hw1 hp]
        decide
      | waitReadyok1 =>
        simp only [step, hp]
        rw [hw2 hp]
        decide
      | waitReadyok2 =>
        simp only [step, hp]
        rw [hw3 hp]
        decide
      | done =>
        rw [show step s Ev.timeout = s from by simp [step, hp]]
        exact ⟨hpfx, hcount, hw1, hw2, hw3, hd⟩

lemma inv2_foldl (post : List Ev) :
    ∀ s0 : InitState, Inv2 s0 → Ev.invoke ∉ post →
      Inv2 (post.foldl step s0) := by
  induction post with
  | nil => intro s0 h0 _; exact h0
  | cons e es ih =>
    intro s0 h0 hpost
    rw [List.foldl_cons]
    refine ih _ (inv2_step s0 e (fun he => hpost (by simp [he])) h0) ?_
    intro hmem
    exact hpost (by simp [hmem])

end InitM

/-- C7: for any number of concurrent `init()` invocations (modelled as
a trace `pre ++ post` where every invocation lies in `pre` and no
handshake step has timed out before the last invocation arrives —
i.e. the callers overlap), the engine receives the handshake-start
command exactly once and the command log never strays from the single
canonical handshake sequence `uci; isready; ucinewgame; isready`:
concurrent callers share the one in-progress handshake. -/
theorem init_single_flight (pre post : List InitM.Ev)
    (hpre : InitM.Ev.timeout ∉ pre)
    (hinvoke : InitM.Ev.invoke ∈ pre)
    (hpost : InitM.Ev.invoke ∉ post) :
    (InitM.run (pre ++ post)).commands.count (("uci").data) = 1 ∧
    ∃ t, (InitM.run (pre ++ post)).commands ++ t = InitM.handshakeCommands := by
  have h1 := InitM.no_timeout_run pre hpre
  have hphase : (InitM.run pre).initPromise ≠ none := h1.2.mp hinvoke
  have hj : InitM.Inv2 (InitM.run pre) := by
    cases hp : (InitM.run pre).initPromise with
    | none => exact absurd hp hphase
    | some ph =>
      have hc := h1.1
      rw [hp] at hc
      cases ph <;> (simp only [InitM.Inv2]; rw [hc, hp]; decide)
  have h2 : InitM.Inv2 (InitM.run (pre ++ post)) := by
    rw [InitM.run, List.foldl_append]
    exact InitM.inv2_foldl post _ hj hpost
  refine ⟨h2.2.1, ?_⟩
  refine ⟨InitM.handshakeCommands.drop
    (InitM.run (pre ++ post)).commands.length, ?_⟩
  nth_rewrite 1 [h2.1]
  exact List.take_append_drop _ _

theorem init_single_flight_witness :
    (InitM.Ev.timeout ∉ [InitM.Ev.invoke, InitM.Ev.invoke, InitM.Ev.invoke]) ∧
    (InitM.Ev.invoke ∈ [InitM.Ev.invoke, InitM.Ev.invoke, InitM.Ev.invoke]) ∧
    (InitM.Ev.invoke ∉ [InitM.Ev.line (("uciok").data),
      InitM.Ev.line (("readyok").data), InitM.Ev.line (("readyok").data)]) ∧
    (InitM.run ([InitM.Ev.invoke, InitM.Ev.invoke, InitM.Ev.invoke] ++
        [InitM.Ev.line (("uciok").data), InitM.Ev.line (("readyok").data),
          InitM.Ev.line (("readyok").data)])).commands.count (("uci").data) = 1 ∧
    (InitM.run ([InitM.Ev.invoke, InitM.Ev.invoke, InitM.Ev.invoke] ++
        [InitM.Ev.line (("uciok").data), InitM.Ev.line (("readyok").data),
          InitM.Ev.line (("readyok").data)])).commands =
      InitM.handshakeCommands :=
  ⟨by decide, by decide, by decide,
    (init_single_flight _ _ (by decide) (by decide) (by decide)).1,
    by decide⟩

/-! ## Analyze FIFO serialization (src/engine/stockfish.ts, lines 80-90)

`analyzePosition` chains each exchange on the tail of `this.queue`:
`task_i = queue_{i-1}.catch(...).then(() => request(message_i))` and
`queue_i = task_i` with both outcomes masked.  Exchange `i`'s request
message is posted by the `then` continuation, which promise semantics
run only after `queue_{i-1}` (that is, exchange `i-1`) has settled;
the exchange settles when `onmessage` resolves or rejects its pending
entry (or `dispose` rejects it).  One event is one event-loop turn:
`invoke` is a call's synchronous queue-chaining section, `post i` is
the microtask running exchange `i`'s continuation (the `postMessage`),
`settle i` is the delivery of exchange `i`'s response (or rejection).
Exchanges are numbered 1, 2, … in invocation order; the initial
resolved `queue` plays the role of exchange 0. -/

namespace ClientQ

/-- `calls`: exchanges created so far; `posted`: exchange ids whose
request message went to the worker, in wire order; `settled`: ids
whose result promise has settled. -/
structure ClientState where
  calls : Nat
  posted : List Nat
  settled : List Nat
deriving DecidableEq, Repr

def initState : ClientState := ⟨0, [], []⟩

inductive Ev where
  | invoke
  | post (i : Nat)
  | settle (i : Nat)
deriving DecidableEq, Repr

/-- One event-loop turn.  `post i` is enabled only when the exchange
exists, has not already run, and its chain predecessor has settled
(the initial queue promise, exchange 0, counts as settled); `settle i`
is enabled only when the request was posted and has not yet settled. -/
def step (s : ClientState) : Ev → ClientState
  | .invoke => { s with calls := s.calls + 1 }
  | .post i =>
    if 1 ≤ i ∧ i ≤ s.calls ∧ i ∉ s.posted ∧ (i = 1 ∨ (i - 1) ∈ s.settled)
    then { s with posted := s.posted ++ [i] }
    else s
  | .settle i =>
    if i ∈ s.posted ∧ i ∉ s.settled
    then { s with settled := s.settled ++ [i] }
    else s

def run (events : List Ev) : ClientState := events.foldl step initState

/-- Reachable-state invariant: requests hit the wire in invocation
order with no gaps, settlements likewise, and at most one posted
exchange is unsettled. -/
structure Inv (s : ClientState) : Prop where
  posted_eq : s.posted = List.range' 1 s.posted.length
  settled_eq : s.settled = List.range' 1 s.settled.length
  settled_le : s.settled.length ≤ s.posted.length
  posted_le : s.posted.length ≤ s.settled.length + 1
  posted_calls : s.posted.length ≤ s.calls

lemma queue_inv_init : Inv initState := by
  constructor <;> simp [initState]

lemma mem_range1_iff (n i : Nat) : i ∈ List.range' 1 n ↔ 1 ≤ i ∧ i ≤ n := by
  rw [List.mem_range']
  constructor
  · rintro ⟨k, hk, rfl⟩
    omega
  · intro ⟨h1, h2⟩
    exact ⟨i - 1, by omega, by omega⟩

lemma range1_concat (n : Nat) :
    List.range' 1 (n + 1) = List.range' 1 n ++ [n + 1] := by
  have h : List.range' 1 (n + 1) = List.range' 1 n ++ [1 + 1 * n] :=
    List.range'_concat 1 n
  simpa [Nat.one_mul, Nat.add_comm] using h

lemma queue_inv_step (s : ClientState) (e : Ev) (hs : Inv s) : Inv (step s e) := by
  obtain ⟨hp, hse, hsl, hpl, hpc⟩ := hs
  cases e with
  | invoke =>
    exact ⟨hp, hse, hsl, hpl, Nat.le_succ_of_le hpc⟩
  | post i =>
    by_cases hc : 1 ≤ i ∧ i ≤ s.calls ∧ i ∉ s.posted ∧
        (i = 1 ∨ (i - 1) ∈ s.settled)
    · simp only [step, if_pos hc]
      obtain ⟨h1, hcalls, hnotp, hprev⟩ := hc
      have hnotp2 : ¬ (1 ≤ i ∧ i ≤ s.posted.length) := by
        intro hw
        exact hnotp (by rw [hp]; exact (mem_range1_iff _ _).mpr hw)
      have hip : i = s.posted.length + 1 ∧
          s.posted.length = s.settled.length := by
        rcases hprev with hprev | hprev
        · omega
        · have := (mem_range1_iff _ _).mp (by rw [← hse]; exact hprev)
          omega
      constructor
      · show s.posted ++ [i] = List.range' 1 (s.posted ++ [i]).length
        rw [show (s.posted ++ [i]).length = s.posted.length + 1 from by simp,
          range1_concat, ← hp, ← hip.1]
      · exact hse
      · simp only [List.length_append, List.length_singleton]
        omega
      · simp only [List.length_append, List.length_singleton]
        omega
      · simp only [List.length_append, List.length_singleton]
        omega
    · simp only [step, if_neg hc]
      exact ⟨hp, hse, hsl, hpl, hpc⟩
  | settle i =>
    by_cases hc : i ∈ s.posted ∧ i ∉ s.settled
    · simp only [step, if_pos hc]
      obtain ⟨hip, hins⟩ := hc
      have hib : 1 ≤ i ∧ i ≤ s.posted.length :=
        (mem_range1_iff _ _).mp (by rw [← hp]; exact hip)
      have hnots : ¬ (1 ≤ i ∧ i ≤ s.settled.length) := by
        intro hw
        exact hins (by rw [hse]; exact (mem_range1_iff _ _).mpr hw)
      have his : i = s.settled.length + 1 := by omega
      constructor
      · exact hp
      · show s.settled ++ [i] = List.range' 1 (s.settled ++ [i]).length
        rw [show (s.settled ++ [i]).length = s.settled.length + 1 from by simp,
          range1_concat, ← hse, ← his]
      · simp only [List.length_append, List.length_singleton]
        omega
      · simp only [List.length_append, List.length_singleton]
        omega
      · exact hpc
    · simp only [step, if_neg hc]
      exact ⟨hp, hse, hsl, hpl, hpc⟩

lemma queue_inv_run (events : List Ev) : Inv (run events) := by
  rw [run]
  induction events using List.reverseRecOn with
  | nil => exact queue_inv_init
  | append_singleton es e ih =>
    rw [List.foldl_append, List.foldl_cons, List.foldl_nil]
    exact queue_inv_step _ e ih

end ClientQ

/-- C1: over every event trace, request messages reach the worker in
invocation order with no interleaving (`posted` is exactly
`1, 2, …, k`), at most one posted exchange is ever unsettled, and an
exchange's request message is posted only after the previous
exchange's result has fully settled — so concurrent `analyzePosition`
callers are strictly serialized on the wire. -/
theorem analyze_exchanges_serialized (events : List ClientQ.Ev) :
    (ClientQ.run events).posted =
      List.range' 1 (ClientQ.run events).posted.length ∧
    (ClientQ.run events).posted.length ≤
      (ClientQ.run events).settled.length + 1 ∧
    (∀ i, 1 ≤ i → i + 1 ∈ (ClientQ.run events).posted →
      i ∈ (ClientQ.run events).settled) := by
  obtain ⟨hp, hse, hsl, hpl, hpc⟩ := ClientQ.queue_inv_run events
  refine ⟨hp, hpl, ?_⟩
  intro i h1 hmem
  have hb := (ClientQ.mem_range1_iff _ _).mp (by rw [← hp]; exact hmem)
  rw [hse]
  exact (ClientQ.mem_range1_iff _ _).mpr ⟨h1, by omega⟩

theorem analyze_exchanges_serialized_witness :
    (1 : Nat) ≤ 1 ∧
    1 + 1 ∈ (ClientQ.run [ClientQ.Ev.invoke, ClientQ.Ev.invoke,
      ClientQ.Ev.post 1, ClientQ.Ev.settle 1, ClientQ.Ev.post 2]).posted ∧
    1 ∈ (ClientQ.run [ClientQ.Ev.invoke, ClientQ.Ev.invoke,
      ClientQ.Ev.post 1, ClientQ.Ev.settle 1, ClientQ.Ev.post 2]).settled :=
  ⟨by decide, by decide,
    (analyze_exchanges_serialized [ClientQ.Ev.invoke, ClientQ.Ev.invoke,
      ClientQ.Ev.post 1, ClientQ.Ev.settle 1,
      ClientQ.Ev.post 2]).2.2 1 (by decide) (by decide)⟩
